import Mathlib

/-!
Verification of the OAI-PMH harvester (`oai_harverster.py`) against its
natural-language specification.  The Python source is shallowly embedded:
strings become `List Char`, file contents become `List Nat` (bytes),
the paginated harvest loop becomes a recursive function over the list of
page fetches, and fallible operations return `Except`.
-/

namespace Harvester

/- ---------------------------------------------------------------
   Python `str.strip()` over the ASCII whitespace characters.
   --------------------------------------------------------------- -/

/-- Whitespace characters stripped by Python `str.strip()` (ASCII part). -/
def isSpaceChar (c : Char) : Bool :=
  c = ' ' || c = '\t' || c = '\n' || c = '\r' || c = '\x0b' || c = '\x0c'

/-- Python `str.strip()` on a character list: drop whitespace at both ends. -/
def pyStrip (cs : List Char) : List Char :=
  ((cs.dropWhile isSpaceChar).reverse.dropWhile isSpaceChar).reverse

/-- Python `str.strip()` on a `String`. -/
def pyStripS (s : String) : String :=
  String.mk (pyStrip s.toList)

/- ---------------------------------------------------------------
   The AMP_FIX regex  &(?![A-Za-z#][A-Za-z0-9]*;)  and its
   substitution with "&amp;" (src/oai_harverster.py line 42,
   applied at line 192).
   --------------------------------------------------------------- -/

/-- Continuation of the lookahead pattern: zero or more characters from
the class A-Za-z0-9 followed by a semicolon.  Because a semicolon is not
alphanumeric, the greedy regex match with backtracking is
equivalent to this deterministic scan. -/
def tailMatches : List Char → Bool
  | [] => false
  | c :: rest => if c = ';' then true else if c.isAlphanum then tailMatches rest else false

/-- The lookahead pattern of AMP_FIX: does the text after an ampersand
start with a character from the class A-Za-z# followed by
alphanumerics and a semicolon. -/
def entityLike (cs : List Char) : Bool :=
  match cs with
  | [] => false
  | c :: rest => (c.isAlpha || c = '#') && tailMatches rest

/-- The characters of the replacement string of the repair pass. -/
def ampEnt : List Char := ['&', 'a', 'm', 'p', ';']

/-- The repair substitution `AMP_FIX.sub("&amp;", text)` of
`fetch_and_parse`: every ampersand whose suffix does not match the
entity-like lookahead pattern is replaced by the five characters of
the entity for an ampersand; every other character is copied. -/
def ampFix : List Char → List Char
  | [] => []
  | c :: rest =>
    if c = '&' then
      if entityLike rest then c :: ampFix rest
      else ampEnt ++ ampFix rest
    else c :: ampFix rest

/- ---------------------------------------------------------------
   Valid XML entity references, following the XML 1.0 grammar
   restricted to the ASCII range (EntityRef = '&' Name ';',
   CharRef = '&#' digits ';' or '&#x' hexdigits ';').  Used to state
   what the specification claims the repair pass does.
   --------------------------------------------------------------- -/

/-- ASCII XML name start character. -/
def xmlNameStart (c : Char) : Bool :=
  c.isAlpha || c = '_' || c = ':'

/-- ASCII XML name character. -/
def xmlNameChar (c : Char) : Bool :=
  c.isAlphanum || c = '_' || c = ':' || c = '-' || c = '.'

/-- Hexadecimal digit in ASCII. -/
def isHexDigitChar (c : Char) : Bool :=
  c.isDigit || ('a' ≤ c && c ≤ 'f') || ('A' ≤ c && c ≤ 'F')

/-- Tail of a name reference: name characters up to a semicolon. -/
def nameSemiTail : List Char → Bool
  | [] => false
  | c :: rest => if c = ';' then true else if xmlNameChar c then nameSemiTail rest else false

/-- Recogniser for `Name ';'` at the head of the list. -/
def nameThenSemi : List Char → Bool
  | [] => false
  | c :: rest => if xmlNameStart c then nameSemiTail rest else false

/-- Tail of a decimal character reference: digits up to a semicolon. -/
def digitsSemiTail : List Char → Bool
  | [] => false
  | c :: rest => if c = ';' then true else if c.isDigit then digitsSemiTail rest else false

/-- Recogniser for one or more decimal digits followed by a semicolon. -/
def digitsThenSemi : List Char → Bool
  | [] => false
  | c :: rest => c.isDigit && digitsSemiTail rest

/-- Tail of a hexadecimal character reference: hex digits up to a semicolon. -/
def hexSemiTail : List Char → Bool
  | [] => false
  | c :: rest => if c = ';' then true else if isHexDigitChar c then hexSemiTail rest else false

/-- Recogniser for one or more hexadecimal digits followed by a semicolon. -/
def hexThenSemi : List Char → Bool
  | [] => false
  | c :: rest => isHexDigitChar c && hexSemiTail rest

/-- Does the text directly after an ampersand begin a valid XML named or
numeric entity reference (ASCII fragment of the XML 1.0 grammar). -/
def validEntityStart (cs : List Char) : Bool :=
  match cs with
  | '#' :: 'x' :: rest => hexThenSemi rest
  | '#' :: rest => digitsThenSemi rest
  | cs => nameThenSemi cs

/- ---------------------------------------------------------------
   A positional description of a one-pass ampersand rewrite: at every
   index holding an ampersand whose suffix fails the predicate `keep`,
   emit the escaped entity; every other position is copied unchanged.
   This is the shape in which the specification describes the repair
   pass; instantiating `keep` with `validEntityStart` gives the
   literal reading of the specification, instantiating it with `entityLike`
   gives the amended reading.
   --------------------------------------------------------------- -/

/-- Rewrite described by positions, as the specification words it. -/
def posRewrite (keep : List Char → Bool) (cs : List Char) : List Char :=
  (List.range cs.length).flatMap (fun i =>
    if (cs.drop i).head? = some '&' && !keep (cs.drop (i + 1)) then ampEnt
    else (cs.drop i).take 1)

/- ---------------------------------------------------------------
   Checkpoint store: `load_state` (src/oai_harverster.py lines 269-273).
   The file system is modelled by the optional content found at the
   checkpoint path; the external JSON library call `json.load`, which
   raises on invalid content, is the `jsonLoad` argument.
   --------------------------------------------------------------- -/

/-- Embedding of `load_state`: return no state when the path does not
exist, otherwise parse the content; a parse failure propagates as an
error exactly as the uncaught exception of `json.load` does. -/
def load_state {D : Type} (jsonLoad : String → Except String D)
    (content : Option String) : Except String (Option D) :=
  match content with
  | none => .ok none
  | some s =>
    match jsonLoad s with
    | .ok d => .ok (some d)
    | .error e => .error e

/-- Whitespace skipping for the JSON recogniser. -/
def jsWs (cs : List Char) : List Char := cs.dropWhile isSpaceChar

/-- Remainder after a JSON string body, entered after the opening quote;
escapes are accepted coarsely. -/
def jsString : List Char → Option (List Char)
  | [] => none
  | '"' :: rest => some rest
  | '\\' :: _ :: rest => jsString rest
  | _ :: rest => jsString rest

/-- Remainder after the numeric characters of a JSON number. -/
def jsNumTail (cs : List Char) : List Char :=
  cs.dropWhile (fun c => c.isDigit || c = '.' || c = 'e' || c = 'E' || c = '+' || c = '-')

mutual

/-- Remainder after one JSON value, or failure. -/
def jsValue : Nat → List Char → Option (List Char)
  | 0, _ => none
  | fuel + 1, cs =>
    match jsWs cs with
    | '"' :: rest => jsString rest
    | '{' :: rest =>
      match jsWs rest with
      | '}' :: r2 => some r2
      | r2 => jsMembers fuel r2
    | '[' :: rest =>
      match jsWs rest with
      | ']' :: r2 => some r2
      | r2 => jsElems fuel r2
    | 't' :: 'r' :: 'u' :: 'e' :: rest => some rest
    | 'f' :: 'a' :: 'l' :: 's' :: 'e' :: rest => some rest
    | 'n' :: 'u' :: 'l' :: 'l' :: rest => some rest
    | c :: rest => if c = '-' || c.isDigit then some (jsNumTail rest) else none
    | [] => none

/-- Remainder after the members of a JSON object, up to the closing brace. -/
def jsMembers : Nat → List Char → Option (List Char)
  | 0, _ => none
  | fuel + 1, cs =>
    match jsWs cs with
    | '"' :: rest =>
      match jsString rest with
      | none => none
      | some r2 =>
        match jsWs r2 with
        | ':' :: r3 =>
          match jsValue fuel r3 with
          | none => none
          | some r4 =>
            match jsWs r4 with
            | ',' :: r5 => jsMembers fuel r5
            | '}' :: r5 => some r5
            | _ => none
        | _ => none
    | _ => none

/-- Remainder after the elements of a JSON array, up to the closing bracket. -/
def jsElems : Nat → List Char → Option (List Char)
  | 0, _ => none
  | fuel + 1, cs =>
    match jsValue fuel cs with
    | none => none
    | some r2 =>
      match jsWs r2 with
      | ',' :: r3 => jsElems fuel r3
      | ']' :: r3 => some r3
      | _ => none

end

/-- JSON syntax recogniser standing for the acceptance behaviour of the
stdlib `json` module: a single JSON value followed only by whitespace. -/
def jsonOk (s : String) : Bool :=
  match jsValue (s.length + 1) s.toList with
  | some rest => jsWs rest = []
  | none => false

/-- Behavioural model of `json.load`: succeeds exactly on syntactically
valid JSON text, raises otherwise. -/
def pyJsonLoad (s : String) : Except String Unit :=
  if jsonOk s then .ok () else .error "Expecting value"

/- ---------------------------------------------------------------
   Fetcher: `safe_open_url` (src/oai_harverster.py lines 114-168).
   One attempt outcome per loop iteration is supplied as input; the
   waits passed to time.sleep are collected in a list.  Seconds are
   modelled as rationals.
   --------------------------------------------------------------- -/

/-- Outcome of one `urllib.request.urlopen` call. -/
inductive Resp where
  | success (body : List Nat)
  | httpError (status : Nat) (retryAfter : Option String)
  | netError
deriving DecidableEq, Repr

/-- Error raised after the retry loop gives up. -/
inductive Fail where
  | http (status : Nat)
  | net
deriving DecidableEq, Repr

/-- Digit value of an ASCII digit character. -/
def digitVal (c : Char) : Nat := c.toNat - 48

/-- Value of a list of decimal digit characters. -/
def decDigitsVal (ds : List Char) : Nat :=
  ds.foldl (fun a c => a * 10 + digitVal c) 0

/-- Embedding of Python `float(s)` on decimal notation: optional sign,
digits with an optional fraction part, optional exponent, surrounded by
optional whitespace; returns the exact rational value, or nothing when
the text is not a number (then `float` raises ValueError). -/
def pyFloat? (s : String) : Option ℚ :=
  let cs := pyStrip s.toList
  let (neg, cs) :=
    match cs with
    | '-' :: rest => (true, rest)
    | '+' :: rest => (false, rest)
    | rest => (false, rest)
  let ip := cs.takeWhile Char.isDigit
  let r1 := cs.dropWhile Char.isDigit
  let (fp, r2) :=
    match r1 with
    | '.' :: rest => (rest.takeWhile Char.isDigit, rest.dropWhile Char.isDigit)
    | _ => ([], r1)
  if ip.isEmpty && fp.isEmpty then none
  else
    let mant : ℚ := (decDigitsVal (ip ++ fp) : ℚ) / (10 : ℚ) ^ fp.length
    let signed : ℚ := if neg then -mant else mant
    match r2 with
    | [] => some signed
    | e :: rest =>
      if e = 'e' || e = 'E' then
        let (eneg, rest) :=
          match rest with
          | '-' :: r => (true, r)
          | '+' :: r => (false, r)
          | r => (false, r)
        let ep := rest.takeWhile Char.isDigit
        let r3 := rest.dropWhile Char.isDigit
        if ep.isEmpty || !r3.isEmpty then none
        else
          let scale : ℚ := (10 : ℚ) ^ decDigitsVal ep
          some (if eneg then signed / scale else signed * scale)
      else none

/-- Wait computed for a retried HTTPError, as in lines 146-153 of the
source: linear backoff, raised to the Retry-After value for a 429 or 503
carrying a nonempty header that parses as seconds. -/
def waitOf (backoff : ℚ) (attempt status : Nat) (ra : Option String) : ℚ :=
  let base := backoff * (attempt + 1)
  if status = 429 || status = 503 then
    match ra with
    | some h =>
      if h ≠ "" then
        match pyFloat? h with
        | some v => max base v
        | none => base
      else base
    | none => base
  else base

/-- Retry loop of `safe_open_url` from a given attempt index: returns the
list of waits slept plus the final result.  A success returns the body;
a failure on the final attempt re-raises. -/
def safeGo (backoff : ℚ) (retries : Nat) : Nat → List Resp → List ℚ × Except Fail (List Nat)
  | _, [] => ([], .error .net)
  | attempt, r :: rest =>
    match r with
    | .success body => ([], .ok body)
    | .httpError st ra =>
      if attempt = retries - 1 then ([], .error (.http st))
      else
        let w := waitOf backoff attempt st ra
        let out := safeGo backoff retries (attempt + 1) rest
        (w :: out.1, out.2)
    | .netError =>
      if attempt = retries - 1 then ([], .error .net)
      else
        let w := backoff * (attempt + 1)
        let out := safeGo backoff retries (attempt + 1) rest
        (w :: out.1, out.2)

/-- Embedding of `safe_open_url` over the sequence of attempt outcomes. -/
def safe_open_url (backoff : ℚ) (retries : Nat) (resps : List Resp) :
    List ℚ × Except Fail (List Nat) :=
  safeGo backoff retries 0 resps

/- ---------------------------------------------------------------
   Output manager: wrapper tags and `ensure_open_wrapper`
   (src/oai_harverster.py lines 206-246).  File contents are byte
   lists; the tail window is decoded as UTF-8 with errors ignored,
   exactly as the source does before calling str.rfind.
   --------------------------------------------------------------- -/

/-- Opening envelope tags per verb. -/
def wrapper_open_tag (verb : String) : List Char :=
  if verb = "ListRecords" then "<OAI-PMH>\n<ListRecords>\n".toList
  else if verb = "ListIdentifiers" then "<OAI-PMH>\n<ListIdentifiers>\n".toList
  else "<OAI-PMH>\n".toList

/-- Closing envelope tags per verb. -/
def wrapper_close_tag (verb : String) : List Char :=
  if verb = "ListRecords" then "</ListRecords>\n</OAI-PMH>\n".toList
  else if verb = "ListIdentifiers" then "</ListIdentifiers>\n</OAI-PMH>\n".toList
  else "</OAI-PMH>\n".toList

/-- UTF-8 continuation byte. -/
def contByte (b : Nat) : Bool := 128 ≤ b && b < 192

/-- Validity range of the second byte of a three-byte sequence. -/
def cont3Ok (b b2 : Nat) : Bool :=
  if b = 224 then 160 ≤ b2 && b2 < 192
  else if b = 237 then 128 ≤ b2 && b2 < 160
  else contByte b2

/-- Validity range of the second byte of a four-byte sequence. -/
def cont4Ok (b b2 : Nat) : Bool :=
  if b = 240 then 144 ≤ b2 && b2 < 192
  else if b = 244 then 128 ≤ b2 && b2 < 144
  else contByte b2

/-- One UTF-8 decoding step at a byte `b` followed by `rest`: the
character emitted, if any, and the total number of bytes consumed
(at least one; an invalid byte is skipped emitting nothing). -/
def utf8Step (b : Nat) (rest : List Nat) : Option Char × Nat :=
  if b < 128 then (some (Char.ofNat b), 1)
  else if 194 ≤ b && b ≤ 223 then
    match rest with
    | b2 :: _ =>
      if contByte b2 then (some (Char.ofNat ((b - 192) * 64 + (b2 - 128))), 2)
      else (none, 1)
    | [] => (none, 1)
  else if 224 ≤ b && b ≤ 239 then
    match rest with
    | b2 :: b3 :: _ =>
      if cont3Ok b b2 && contByte b3 then
        (some (Char.ofNat ((b - 224) * 4096 + (b2 - 128) * 64 + (b3 - 128))), 3)
      else (none, 1)
    | _ => (none, 1)
  else if 240 ≤ b && b ≤ 244 then
    match rest with
    | b2 :: b3 :: b4 :: _ =>
      if cont4Ok b b2 && contByte b3 && contByte b4 then
        (some (Char.ofNat ((b - 240) * 262144 + (b2 - 128) * 4096 + (b3 - 128) * 64 + (b4 - 128))), 4)
      else (none, 1)
    | _ => (none, 1)
  else (none, 1)

/-- Decoder loop with explicit fuel so that the recursion is structural;
every step consumes at least one byte, so fuel equal to the length of
the input is always enough. -/
def utf8DecodeFuel : Nat → List Nat → List Char
  | 0, _ => []
  | _ + 1, [] => []
  | fuel + 1, b :: rest =>
    let st := utf8Step b rest
    st.1.toList ++ utf8DecodeFuel fuel (rest.drop (st.2 - 1))

/-- UTF-8 decoder with invalid bytes skipped, the embedding of
Python `bytes.decode("utf-8", errors="ignore")`. -/
def utf8DecodeIgnore (l : List Nat) : List Char :=
  utf8DecodeFuel l.length l

/-- Python `str.rfind` returning the highest index at which the needle
occurs in the haystack, as an option. -/
def rfindStr (needle hay : List Char) : Option Nat :=
  ((List.range (hay.length + 1)).filter (fun i => needle.isPrefixOf (hay.drop i))).getLast?

/-- ASCII bytes of a character list. -/
def asciiBytes (cs : List Char) : List Nat := cs.map Char.toNat

/-- Embedding of `ensure_open_wrapper`: the input is the current content
of the output file (or nothing when the file is absent) and the result is
its content afterwards.  An absent or empty file receives exactly the
opening tag; otherwise the last `tail_len = min 8192 size` bytes are
read, decoded with errors ignored, searched from the right for the
closing tag, and on a hit the file is truncated at byte offset
`size - tail_len + idx` where `idx` is the character index returned by
rfind. -/
def ensure_open_wrapper (verb : String) (file : Option (List Nat)) : List Nat :=
  match file with
  | none => asciiBytes (wrapper_open_tag verb)
  | some bs =>
    if bs.length = 0 then asciiBytes (wrapper_open_tag verb)
    else
      let tailLen := min 8192 bs.length
      let tl := bs.drop (bs.length - tailLen)
      match rfindStr (wrapper_close_tag verb) (utf8DecodeIgnore tl) with
      | some idx => bs.take (bs.length - tailLen + idx)
      | none => bs

/- ---------------------------------------------------------------
   Field extraction: `resolve_qname` and
   `extract_edm_field_from_record` (src/oai_harverster.py lines
   315-335).  Elements carry a qualified tag, optional text and a
   child list; `find(".//tag")` is the first descendant in document
   order, `find("tag")` the first direct child.
   --------------------------------------------------------------- -/

mutual

/-- XML element with qualified tag, optional text and children. -/
inductive XElem where
  | node (tag : String) (text : Option String) (children : XForest)

/-- Sequence of sibling elements, as a mutual inductive so that searches
over the tree are structurally recursive. -/
inductive XForest where
  | nil
  | cons (head : XElem) (tail : XForest)

end

/-- Forest built from a list of elements. -/
def XForest.ofList : List XElem → XForest
  | [] => .nil
  | e :: es => .cons e (XForest.ofList es)

/-- Tag of an element. -/
def XElem.tag : XElem → String
  | .node t _ _ => t

/-- Text of an element. -/
def XElem.text : XElem → Option String
  | .node _ tx _ => tx

/-- Children of an element. -/
def XElem.children : XElem → XForest
  | .node _ _ cs => cs

/-- Is the forest empty. -/
def XForest.isNil : XForest → Bool
  | .nil => true
  | .cons _ _ => false

/-- First direct child carrying the given tag, as `find("tag")`. -/
def findChild (t : String) : XForest → Option XElem
  | .nil => none
  | .cons c rest => if c.tag = t then some c else findChild t rest

/-- First element with the given tag among the elements of the forest
and all their descendants, in document order; `find(".//tag")` relative
to an element is this function on its child forest. -/
def findDeepList (t : String) : XForest → Option XElem
  | .nil => none
  | .cons (XElem.node tg tx cs) rest =>
    if tg = t then some (.node tg tx cs)
    else
      match findDeepList t cs with
      | some r => some r
      | none => findDeepList t rest

/-- Namespace prefixes declared in the NS table of the source. -/
def knownNS (p : String) : Bool :=
  p = "oai" || p = "edm" || p = "dc" || p = "dcterms" || p = "ore"

/-- Shape of the search that `md.find(xpath, nsmap)` performs for the
xpath returned by `resolve_qname`. -/
inductive XPathKind where
  | direct (tag : String)
  | deep (tag : String)
  | raises
deriving DecidableEq, Repr

/-- Embedding of `resolve_qname`: a name without a colon is returned as
is (a direct-child path); a known prefix becomes a subtree path; an
unknown prefix is returned as is, and the later find call on it raises
because the prefix is not in the namespace map. -/
def resolve_qname (q : String) : XPathKind :=
  let cs := q.toList
  if ':' ∈ cs then
    let p := String.mk (cs.takeWhile (fun c => c ≠ ':'))
    if knownNS p then .deep q else .raises
  else .direct q

/-- Python truth value of an Element: it is falsy when it has no
children (documented, deprecated behaviour of ElementTree). -/
def pyElemTruthy (e : XElem) : Bool := !(e.children.isNil)

/-- The expression `a or b` on optional elements, with Python truthiness. -/
def orElem (a b : Option XElem) : Option XElem :=
  match a with
  | some e => if pyElemTruthy e then some e else b
  | none => b

/-- Trimmed text of a found element if its text is truthy, following
`if el is not None and el.text: return el.text.strip()`. -/
def truthyText (el : Option XElem) : Option String :=
  match el with
  | none => none
  | some e =>
    match e.text with
    | none => none
    | some tx => if tx = "" then none else some (pyStripS tx)

/-- Embedding of `extract_edm_field_from_record`. -/
def extract_edm_field_from_record (record : XElem) (q : String) : Except String String :=
  match findChild "oai:metadata" record.children with
  | none => .ok ""
  | some md =>
    let el : Except String (Option XElem) :=
      match resolve_qname q with
      | .raises => .error "SyntaxError: prefix not found in prefix map"
      | .direct t => .ok (findChild t md.children)
      | .deep t => .ok (findDeepList t md.children)
    match el with
    | .error e => .error e
    | .ok el =>
      match truthyText el with
      | some v => .ok v
      | none =>
        if q = "edm:isShownAt" then
          match truthyText (orElem (findDeepList "edm:isShownBy" md.children)
              (findDeepList "dc:identifier" md.children)) with
          | some v => .ok v
          | none => .ok ""
        else .ok ""

/- ---------------------------------------------------------------
   Harvest orchestrator: the paginated while-loop of `harvest`
   (src/oai_harverster.py lines 465-541), for a fresh (non-resumed)
   run.  The server is modelled by the list of page fetch outcomes,
   in order; a page carries its number of record/header elements and
   its resumptionToken element.
   --------------------------------------------------------------- -/

/-- Configuration of one harvest invocation (paginated verbs). -/
structure HConfig where
  maxItems : Option Nat
  rotateEvery : Option Nat
  csvOn : Bool
  jsonlOn : Bool
deriving DecidableEq, Repr

/-- Observable state of the loop: item count, rotation index, items in
the current segment, sizes of segments sealed by rotation, pages
fetched, export rows written, last stored resumption token, and the
file indices that received closing tags. -/
structure HState where
  numItems : Nat
  fileIndex : Nat
  curSeg : Nat
  sealed : List Nat
  pagesFetched : Nat
  csvRows : Nat
  jsonlRows : Nat
  token : List Char
  closedIdx : List Nat
deriving DecidableEq, Repr

/-- One server interaction: a parsed page, or a fatal error raised by
`fetch_and_parse` (unrepairable XML or exhausted retries). -/
inductive Fetch where
  | page (items : Nat) (tok : Option (Option (List Char)))
  | failure
deriving DecidableEq, Repr

/-- How the loop ends: normal exit from the while loop (the closing
wrapper of line 538 then runs), an exception propagating out, or the
model running out of supplied pages. -/
inductive Outcome where
  | done (s : HState)
  | aborted (s : HState)
  | outOfPages (s : HState)
deriving DecidableEq, Repr

/-- Line 468 guard: a configured item limit has been reached. -/
def limitReached (cfg : HConfig) (s : HState) : Bool :=
  match cfg.maxItems with
  | none => false
  | some n => n ≤ s.numItems

/-- Line 522: `rt_el.text.strip() if rt_el is not None and rt_el.text
else ""` over the optional token element and its optional text. -/
def tokenOf : Option (Option (List Char)) → List Char
  | none => []
  | some none => []
  | some (some t) => if t.isEmpty then [] else pyStrip t

/-- Number of items of the page actually written, honouring the per-item
limit check of line 489. -/
def writtenOf (cfg : HConfig) (s : HState) (items : Nat) : Nat :=
  match cfg.maxItems with
  | none => items
  | some n => min items (n - s.numItems)

/-- Items of one page written to the segment and export sinks. -/
def writeItems (cfg : HConfig) (s : HState) (items : Nat) : HState :=
  { s with
    numItems := s.numItems + writtenOf cfg s items
    curSeg := s.curSeg + writtenOf cfg s items
    pagesFetched := s.pagesFetched + 1
    csvRows := s.csvRows + (if cfg.csvOn then writtenOf cfg s items else 0)
    jsonlRows := s.jsonlRows + (if cfg.jsonlOn then writtenOf cfg s items else 0) }

/-- Rotation check of line 513: after a page, when a rotation threshold
is configured (and nonzero, by Python truthiness) and the cumulative
item count is a positive multiple of it, the current segment is sealed
and the next segment is opened. -/
def rotateStep (cfg : HConfig) (s : HState) : HState :=
  match cfg.rotateEvery with
  | none => s
  | some r =>
    if r ≠ 0 ∧ s.numItems ≠ 0 ∧ s.numItems % r = 0 then
      { s with
        sealed := s.sealed ++ [s.curSeg]
        closedIdx := s.closedIdx ++ [s.fileIndex]
        fileIndex := s.fileIndex + 1
        curSeg := 0 }
    else s

/-- Processing of one fetched page: write items, run the rotation check,
store the stripped resumption token. -/
def pageStep (cfg : HConfig) (s : HState) (items : Nat)
    (tok : Option (Option (List Char))) : HState :=
  { rotateStep cfg (writeItems cfg s items) with token := tokenOf tok }

/-- The `write_close_wrapper` call on the current segment. -/
def sealNow (s : HState) : HState :=
  { s with closedIdx := s.closedIdx ++ [s.fileIndex] }

/-- The while loop of `harvest`: check the limit, fetch a page (or
propagate its exception), write and rotate, then stop on an empty
stripped token; a normal exit runs `write_close_wrapper` once. -/
def harvestLoop (cfg : HConfig) : HState → List Fetch → Outcome
  | s, fs =>
    if limitReached cfg s then .done (sealNow s)
    else
      match fs with
      | [] => .outOfPages s
      | .failure :: _ => .aborted s
      | .page items tok :: rest =>
        let s' := pageStep cfg s items tok
        if s'.token.isEmpty then .done (sealNow s')
        else harvestLoop cfg s' rest

/-- Initial state of a fresh run: no items, file index 1, empty first
segment open, nothing sealed. -/
def initHState : HState := ⟨0, 1, 0, [], 0, 0, 0, [], []⟩

/-- A whole fresh harvest run over the given server pages. -/
def harvestRun (cfg : HConfig) (fs : List Fetch) : Outcome :=
  harvestLoop cfg initHState fs

/-- Element count of a fetch outcome. -/
def itemsOfFetch : Fetch → Nat
  | .page k _ => k
  | .failure => 0

/-- Total items the server would deliver over the given fetches. -/
def sumItems (fs : List Fetch) : Nat := (fs.map itemsOfFetch).sum

/-- Well-formed server behaviour for a full pagination: every fetch is a
page, and every page except the last carries a nonempty stripped token. -/
def goodPages : List Fetch → Bool
  | [] => true
  | [.page _ _] => true
  | .page _ t :: rest => !(tokenOf t).isEmpty && goodPages rest
  | .failure :: _ => false

/-- Server that delivers the same number of items on every page, over a
given number of pages, the last page carrying no token element. -/
def uniformPages (r : Nat) : Nat → List Fetch
  | 0 => []
  | 1 => [.page r none]
  | n + 2 => .page r (some (some ['t'])) :: uniformPages r (n + 1)

/-- Invariant of a fresh run: the file indices that received closing
tags so far are exactly one through the current index minus one. -/
def goodIdx (s : HState) : Prop :=
  1 ≤ s.fileIndex ∧ s.closedIdx = (List.range (s.fileIndex - 1)).map (· + 1)

/-- Invariant of a fresh run tying export rows and segment contents to
the item count. -/
def rowsInv (cfg : HConfig) (s : HState) : Prop :=
  s.csvRows = (if cfg.csvOn then s.numItems else 0) ∧
  s.jsonlRows = (if cfg.jsonlOn then s.numItems else 0) ∧
  s.sealed.sum + s.curSeg = s.numItems

/- ---------------------------------------------------------------
   Unfolding lemmas for the loop, and bookkeeping lemmas.
   --------------------------------------------------------------- -/

/-- Loop unfolding on an empty fetch list. -/
theorem harvestLoop_nil (cfg : HConfig) (s : HState) :
    harvestLoop cfg s [] =
      if limitReached cfg s then .done (sealNow s) else .outOfPages s := rfl

/-- Loop unfolding on a failing fetch. -/
theorem harvestLoop_failure (cfg : HConfig) (s : HState) (rest : List Fetch) :
    harvestLoop cfg s (.failure :: rest) =
      if limitReached cfg s then .done (sealNow s) else .aborted s := rfl

/-- Loop unfolding on a fetched page. -/
theorem harvestLoop_cons_page (cfg : HConfig) (s : HState) (items : Nat)
    (tok : Option (Option (List Char))) (rest : List Fetch) :
    harvestLoop cfg s (.page items tok :: rest) =
      if limitReached cfg s then .done (sealNow s)
      else if (pageStep cfg s items tok).token.isEmpty then
        .done (sealNow (pageStep cfg s items tok))
      else harvestLoop cfg (pageStep cfg s items tok) rest := rfl

/-- Once the limit is reached, the loop stops at once and seals. -/
theorem harvestLoop_limit_stop (cfg : HConfig) (s : HState) (fs : List Fetch)
    (h : limitReached cfg s = true) :
    harvestLoop cfg s fs = .done (sealNow s) := by
  cases fs with
  | nil => rw [harvestLoop_nil, if_pos h]
  | cons f rest =>
    cases f with
    | page k t => rw [harvestLoop_cons_page, if_pos h]
    | failure => rw [harvestLoop_failure, if_pos h]

/-- The token stored for a present token element is the stripped text. -/
theorem tokenOf_some (t : List Char) : tokenOf (some (some t)) = pyStrip t := by
  cases t with
  | nil => rfl
  | cons c rest => rfl

/-- A page step stores exactly the stripped token of the page. -/
theorem pageStep_token (cfg : HConfig) (s : HState) (items : Nat)
    (tok : Option (Option (List Char))) :
    (pageStep cfg s items tok).token = tokenOf tok := rfl

/-- A page step advances the item count by the written amount. -/
theorem pageStep_numItems (cfg : HConfig) (s : HState) (items : Nat)
    (tok : Option (Option (List Char))) :
    (pageStep cfg s items tok).numItems = s.numItems + writtenOf cfg s items := by
  show (rotateStep cfg (writeItems cfg s items)).numItems = _
  unfold rotateStep
  cases cfg.rotateEvery with
  | none => rfl
  | some r =>
    dsimp only
    split <;> rfl

/-- A page step counts exactly one fetched page. -/
theorem pageStep_pagesFetched (cfg : HConfig) (s : HState) (items : Nat)
    (tok : Option (Option (List Char))) :
    (pageStep cfg s items tok).pagesFetched = s.pagesFetched + 1 := by
  show (rotateStep cfg (writeItems cfg s items)).pagesFetched = _
  unfold rotateStep
  cases cfg.rotateEvery with
  | none => rfl
  | some r =>
    dsimp only
    split <;> rfl

/-- Sealing the current segment does not change the other fields. -/
theorem sealNow_fields (s : HState) :
    (sealNow s).numItems = s.numItems ∧ (sealNow s).fileIndex = s.fileIndex ∧
    (sealNow s).curSeg = s.curSeg ∧ (sealNow s).sealed = s.sealed ∧
    (sealNow s).pagesFetched = s.pagesFetched ∧ (sealNow s).csvRows = s.csvRows ∧
    (sealNow s).jsonlRows = s.jsonlRows :=
  ⟨rfl, rfl, rfl, rfl, rfl, rfl, rfl⟩

/-- A page step preserves the closing-tag index invariant. -/
theorem pageStep_goodIdx (cfg : HConfig) (s : HState) (items : Nat)
    (tok : Option (Option (List Char))) (h : goodIdx s) :
    goodIdx (pageStep cfg s items tok) := by
  obtain ⟨h1, h2⟩ := h
  show goodIdx (rotateStep cfg (writeItems cfg s items))
  unfold rotateStep
  cases cfg.rotateEvery with
  | none => exact ⟨h1, h2⟩
  | some r =>
    dsimp only
    split
    · refine ⟨by simp, ?_⟩
      show s.closedIdx ++ [s.fileIndex] = (List.range (s.fileIndex + 1 - 1)).map (· + 1)
      rw [h2, Nat.add_sub_cancel,
        show s.fileIndex = (s.fileIndex - 1) + 1 by omega, List.range_succ]
      simp
    · exact ⟨h1, h2⟩

/-- Under the index invariant the current segment has never been
sealed. -/
theorem count_current_zero (s : HState) (h : goodIdx s) :
    s.closedIdx.count s.fileIndex = 0 := by
  obtain ⟨h1, h2⟩ := h
  rw [h2, List.count_eq_zero]
  intro hmem
  obtain ⟨x, hx, heq⟩ := List.mem_map.mp hmem
  have := List.mem_range.mp hx
  omega

/-- Sealing the current segment under the invariant closes it exactly
once. -/
theorem count_sealNow_one (s : HState) (h : goodIdx s) :
    (sealNow s).closedIdx.count (sealNow s).fileIndex = 1 := by
  show (s.closedIdx ++ [s.fileIndex]).count s.fileIndex = 1
  rw [List.count_append, count_current_zero s h]
  simp

/-- C2 (amended, helper).  From any state satisfying the index
invariant, a normal exit of the loop leaves the current segment sealed
exactly once and a fatal error leaves it sealed zero times. -/
theorem harvestLoop_seals (cfg : HConfig) :
    ∀ (fs : List Fetch) (s : HState), goodIdx s →
      (∀ s', harvestLoop cfg s fs = .done s' →
        s'.closedIdx.count s'.fileIndex = 1) ∧
      (∀ s', harvestLoop cfg s fs = .aborted s' →
        s'.closedIdx.count s'.fileIndex = 0) := by
  intro fs
  induction fs with
  | nil =>
    intro s hidx
    constructor
    · intro s' hrun
      rw [harvestLoop_nil] at hrun
      by_cases hl : limitReached cfg s = true
      · rw [if_pos hl] at hrun
        cases hrun
        exact count_sealNow_one s hidx
      · rw [if_neg hl] at hrun
        cases hrun
    · intro s' hrun
      rw [harvestLoop_nil] at hrun
      by_cases hl : limitReached cfg s = true
      · rw [if_pos hl] at hrun
        cases hrun
      · rw [if_neg hl] at hrun
        cases hrun
  | cons f rest ih =>
    intro s hidx
    cases f with
    | failure =>
      constructor
      · intro s' hrun
        rw [harvestLoop_failure] at hrun
        by_cases hl : limitReached cfg s = true
        · rw [if_pos hl] at hrun
          cases hrun
          exact count_sealNow_one s hidx
        · rw [if_neg hl] at hrun
          cases hrun
      · intro s' hrun
        rw [harvestLoop_failure] at hrun
        by_cases hl : limitReached cfg s = true
        · rw [if_pos hl] at hrun
          cases hrun
        · rw [if_neg hl] at hrun
          cases hrun
          exact count_current_zero s hidx
    | page items tok =>
      have hidx2 := pageStep_goodIdx cfg s items tok hidx
      constructor
      · intro s' hrun
        rw [harvestLoop_cons_page] at hrun
        by_cases hl : limitReached cfg s = true
        · rw [if_pos hl] at hrun
          cases hrun
          exact count_sealNow_one s hidx
        · rw [if_neg hl] at hrun
          by_cases ht : (pageStep cfg s items tok).token.isEmpty = true
          · rw [if_pos ht] at hrun
            cases hrun
            exact count_sealNow_one _ hidx2
          · rw [if_neg ht] at hrun
            exact (ih _ hidx2).1 s' hrun
      · intro s' hrun
        rw [harvestLoop_cons_page] at hrun
        by_cases hl : limitReached cfg s = true
        · rw [if_pos hl] at hrun
          cases hrun
        · rw [if_neg hl] at hrun
          by_cases ht : (pageStep cfg s items tok).token.isEmpty = true
          · rw [if_pos ht] at hrun
            cases hrun
          · rw [if_neg ht] at hrun
            exact (ih _ hidx2).2 s' hrun

/- ---------------------------------------------------------------
   Lemmas about the repair pass.
   --------------------------------------------------------------- -/

/-- Unfolding of the positional rewrite at a cons cell. -/
theorem posRewrite_cons (keep : List Char → Bool) (c : Char) (rest : List Char) :
    posRewrite keep (c :: rest) =
      (if c = '&' && !keep rest then ampEnt else [c]) ++ posRewrite keep rest := by
  show (List.range (rest.length + 1)).flatMap _ = _
  rw [List.range_succ_eq_map, List.flatMap_cons, List.flatMap_map]
  congr 1
  by_cases hc : c = '&' <;> simp [hc]

/-- The repair pass leaves a tail that matched the lookahead pattern
still matching it: the matched span holds no ampersand. -/
theorem ampFix_tailMatches {l : List Char} (h : tailMatches l = true) :
    tailMatches (ampFix l) = true := by
  induction l with
  | nil => simp [tailMatches] at h
  | cons c rest ih =>
    by_cases hsemi : c = ';'
    · subst hsemi
      simp [ampFix, tailMatches]
    · rw [tailMatches, if_neg hsemi] at h
      by_cases ha : c.isAlphanum
      · rw [if_pos ha] at h
        have hamp : c ≠ '&' := by
          intro e
          subst e
          simp at ha
        rw [ampFix, if_neg hamp, tailMatches, if_neg hsemi, if_pos ha]
        exact ih h
      · rw [if_neg ha] at h
        exact absurd h (by simp)

/-- The repair pass preserves the lookahead pattern at the head of a
suffix that already matched it. -/
theorem ampFix_entityLike {l : List Char} (h : entityLike l = true) :
    entityLike (ampFix l) = true := by
  cases l with
  | nil => simp [entityLike] at h
  | cons c rest =>
    rw [entityLike] at h
    have h1 := Bool.and_eq_true _ _ |>.mp h
    have hne : c ≠ '&' := by
      intro e
      subst e
      simp at h1
    rw [ampFix, if_neg hne, entityLike]
    exact Bool.and_eq_true _ _ |>.mpr ⟨h1.1, ampFix_tailMatches h1.2⟩

/-- C4 (counterexample).  The repair pass does not rewrite exactly the
ampersands that fail to begin a valid XML entity reference: on the text
consisting of an ampersand, a hash, the letter z and a semicolon the
ampersand begins no valid named or numeric reference yet is left
unescaped, and on an ampersand followed by a hyphenated name reference
the ampersand begins a valid reference yet is escaped.  In both cases
the output of AMP_FIX differs from the rewrite the claim describes. -/
theorem c4_counterexample :
    ampFix "&#z;".toList ≠ posRewrite validEntityStart "&#z;".toList ∧
    ampFix "&a-b;".toList ≠ posRewrite validEntityStart "&a-b;".toList := by
  decide

/-- C4 (amended).  The single repair pass rewrites to the escaped
ampersand entity exactly those ampersands whose following text does not
match the pattern of a letter or hash followed by alphanumerics and a
semicolon, and changes nothing else: AMP_FIX substitution equals the
positional rewrite driven by that lookahead pattern. -/
theorem c4_amp_fix_positional (cs : List Char) :
    ampFix cs = posRewrite entityLike cs := by
  induction cs with
  | nil => rfl
  | cons c rest ih =>
    rw [posRewrite_cons]
    by_cases hc : c = '&'
    · subst hc
      by_cases he : entityLike rest
      · simp [ampFix, he, ih]
      · simp [ampFix, he, ih]
    · simp [ampFix, hc, ih]

/-- C9.  The repair substitution is idempotent: the escaped entity it
introduces itself matches the lookahead pattern, and every ampersand it
keeps is still followed by its original matching span, so a second pass
changes nothing. -/
theorem c9_amp_fix_idempotent (cs : List Char) :
    ampFix (ampFix cs) = ampFix cs := by
  induction cs with
  | nil => rfl
  | cons c rest ih =>
    by_cases hc : c = '&'
    · subst hc
      by_cases he : entityLike rest
      · rw [ampFix, if_pos rfl, if_pos he]
        rw [ampFix, if_pos rfl, if_pos (ampFix_entityLike he), ih]
      · rw [ampFix, if_pos rfl, if_neg he]
        show ampFix ('&' :: 'a' :: 'm' :: 'p' :: ';' :: ampFix rest) = _
        rw [ampFix, if_pos rfl, if_pos (by simp [entityLike, tailMatches])]
        simp [ampFix, ih, ampEnt]
    · rw [ampFix, if_neg hc, ampFix, if_neg hc, ih]

/- ---------------------------------------------------------------
   Checkpoint loading (C3).
   --------------------------------------------------------------- -/

/-- C3 (counterexample).  A checkpoint file that exists but holds
invalid content makes loading raise: the parse error of `json.load`
propagates out of `load_state`, instead of the state being treated as
absent with a warning as the claim states. -/
theorem c3_counterexample :
    load_state pyJsonLoad (some "garbage") = Except.error "Expecting value" := by
  rfl

/-- C3 (amended).  Loading a checkpoint returns no state, without error,
exactly when the file does not exist; when the file exists, a successful
parse returns its state and a parse failure propagates as an error (the
code neither catches it nor deletes the file). -/
theorem c3_load_state (D : Type) (jsonLoad : String → Except String D)
    (content : Option String) :
    (content = none → load_state jsonLoad content = .ok none) ∧
    (∀ s d, content = some s → jsonLoad s = .ok d →
      load_state jsonLoad content = .ok (some d)) ∧
    (∀ s e, content = some s → jsonLoad s = .error e →
      load_state jsonLoad content = .error e) := by
  refine ⟨fun h => ?_, fun s d h1 h2 => ?_, fun s e h1 h2 => ?_⟩
  · subst h
    rfl
  · subst h1
    simp [load_state, h2]
  · subst h1
    simp [load_state, h2]

/-- C3 (witness).  The amended behaviour at concrete inputs: an absent
checkpoint yields no state, and unparsable content raises. -/
theorem c3_witness :
    load_state pyJsonLoad (none : Option String) = Except.ok none ∧
    load_state pyJsonLoad (some "garbage") = Except.error "Expecting value" := by
  constructor
  · exact (c3_load_state Unit pyJsonLoad none).1 rfl
  · exact (c3_load_state Unit pyJsonLoad (some "garbage")).2.2 "garbage" "Expecting value" rfl rfl

/- ---------------------------------------------------------------
   Field extraction (C5).
   --------------------------------------------------------------- -/

/-- Record whose metadata holds a display-image element with text but no
children, plus a generic identifier element: the failing input of C5. -/
def c5record : XElem :=
  .node "oai:record" none (XForest.ofList
    [.node "oai:metadata" none (XForest.ofList
      [.node "edm:isShownBy" (some "http://img.example/1.jpg") .nil,
       .node "dc:identifier" (some "ID123") .nil])])

/-- C5 (code bug).  A record lacking the display-location field but
containing a display-image element with text should, per the fallback
chain, yield the display-image value; instead the code returns the
generic identifier value.  The cause is the expression
`md.find(".//edm:isShownBy", NS) or md.find(".//dc:identifier", NS)`:
an ElementTree element with no children is falsy, so a found leaf
display-image element is discarded by `or`. -/
theorem c5_fallback_bug :
    extract_edm_field_from_record c5record "edm:isShownAt" = .ok "ID123" ∧
    ("ID123" : String) ≠ "http://img.example/1.jpg" :=
  ⟨by rfl, by decide⟩

/- ---------------------------------------------------------------
   Output reopening (C6).
   --------------------------------------------------------------- -/

/-- Round trip of a small code point through Char.ofNat. -/
theorem toNat_ofNat_small (n : Nat) (h : n < 128) : (Char.ofNat n).toNat = n := by
  have hv : n.isValidChar := Or.inl (by omega)
  simp [Char.ofNat, hv, Char.toNat, Char.ofNatAux, UInt32.toNat, BitVec.toNat_ofNatLt]

/-- With enough fuel, decoding an all-ASCII byte list maps each byte to
its character. -/
theorem utf8DecodeFuel_ascii :
    ∀ (fuel : Nat) (l : List Nat), l.length ≤ fuel → (∀ b ∈ l, b < 128) →
      utf8DecodeFuel fuel l = l.map Char.ofNat := by
  intro fuel
  induction fuel with
  | zero =>
    intro l hl _
    have : l = [] := List.eq_nil_of_length_eq_zero (Nat.le_zero.mp hl)
    subst this
    rfl
  | succ fuel ih =>
    intro l hl hb
    cases l with
    | nil => rfl
    | cons b rest =>
      have hb0 : b < 128 := hb b (by simp)
      have hstep : utf8Step b rest = (some (Char.ofNat b), 1) := by
        simp [utf8Step, hb0]
      have hlen : rest.length ≤ fuel := by
        simp only [List.length_cons] at hl
        omega
      simp only [utf8DecodeFuel, hstep, Option.toList_some, List.singleton_append,
        List.map_cons, Nat.sub_self, List.drop_zero, List.cons.injEq, true_and]
      exact ih rest hlen (fun x hx => hb x (List.mem_cons_of_mem _ hx))

/-- Decoding an all-ASCII byte list maps each byte to its character. -/
theorem utf8DecodeIgnore_ascii (l : List Nat) (hb : ∀ b ∈ l, b < 128) :
    utf8DecodeIgnore l = l.map Char.ofNat :=
  utf8DecodeFuel_ascii l.length l le_rfl hb

/-- A character-level prefix test through the ASCII decoding agrees with
the byte-level prefix test. -/
theorem isPrefixOf_map_ofNat (needle : List Char) :
    ∀ (l : List Nat), (∀ b ∈ l, b < 128) → (∀ c ∈ needle, c.toNat < 128) →
      needle.isPrefixOf (l.map Char.ofNat) = (needle.map Char.toNat).isPrefixOf l := by
  induction needle with
  | nil =>
    intro l _ _
    simp [List.isPrefixOf]
  | cons c cs ih =>
    intro l hl hn
    cases l with
    | nil => simp [List.isPrefixOf]
    | cons b bs =>
      have hb : b < 128 := hl b (by simp)
      have hc : c.toNat < 128 := hn c (by simp)
      have hhead : (c == Char.ofNat b) = (c.toNat == b) := by
        by_cases he : c = Char.ofNat b
        · have : c.toNat = b := by rw [he, toNat_ofNat_small b hb]
          simp [he, this, toNat_ofNat_small b hb]
        · have hne : c.toNat ≠ b := by
            intro hx
            exact he (by rw [← hx, Char.ofNat_toNat])
          simp [he, hne]
      show ((c == Char.ofNat b) && cs.isPrefixOf (bs.map Char.ofNat)) = _
      rw [hhead, ih bs (fun x hx => hl x (List.mem_cons_of_mem _ hx))
        (fun x hx => hn x (List.mem_cons_of_mem _ hx))]
      rfl

/-- An index returned by rfindStr is in range and marks an occurrence of
the needle. -/
theorem rfindStr_some {needle hay : List Char} {i : Nat}
    (h : rfindStr needle hay = some i) :
    i ≤ hay.length ∧ needle.isPrefixOf (hay.drop i) = true := by
  have hmem := List.mem_of_mem_getLast? h
  have hfp := List.mem_filter.mp hmem
  exact ⟨by have := List.mem_range.mp hfp.1; omega, hfp.2⟩

/-- The last element of a strictly increasing list bounds its members. -/
theorem getLast?_max_of_pairwise :
    ∀ (l : List Nat), l.Pairwise (· < ·) →
      ∀ a b, a ∈ l → l.getLast? = some b → a ≤ b := by
  intro l
  induction l with
  | nil =>
    intro _ a b ha _
    exact absurd ha (List.not_mem_nil a)
  | cons x xs ih =>
    intro hp a b ha hb
    cases xs with
    | nil =>
      simp at ha hb
      omega
    | cons y ys =>
      rw [List.getLast?_cons_cons] at hb
      rcases List.mem_cons.mp ha with hax | haxs
      · have hbmem : b ∈ y :: ys := List.mem_of_mem_getLast? hb
        have hxlt : x < b := (List.pairwise_cons.mp hp).1 b hbmem
        omega
      · exact ih (List.pairwise_cons.mp hp).2 a b haxs hb

/-- rfindStr returns the highest occurrence index, as str.rfind does. -/
theorem rfindStr_last {needle hay : List Char} {i : Nat}
    (h : rfindStr needle hay = some i) :
    ∀ j, j ≤ hay.length → needle.isPrefixOf (hay.drop j) = true → j ≤ i := by
  intro j hj hpre
  have hmem : j ∈ (List.range (hay.length + 1)).filter
      (fun k => needle.isPrefixOf (hay.drop k)) := by
    exact List.mem_filter.mpr ⟨List.mem_range.mpr (by omega), hpre⟩
  have hpw : ((List.range (hay.length + 1)).filter
      (fun k => needle.isPrefixOf (hay.drop k))).Pairwise (· < ·) :=
    List.Pairwise.filter _ (List.pairwise_lt_range _)
  exact getLast?_max_of_pairwise _ hpw j i hmem h

/-- The closing tag bytes are ASCII for every verb. -/
theorem close_tag_ascii (verb : String) :
    ∀ c ∈ wrapper_close_tag verb, c.toNat < 128 := by
  unfold wrapper_close_tag
  split_ifs <;> decide

/-- File content holding one two-byte UTF-8 character between the
envelope tags: the failing input of C6. -/
def c6bytes : List Nat :=
  asciiBytes (wrapper_open_tag "ListRecords") ++ [195, 169] ++
    asciiBytes (wrapper_close_tag "ListRecords")

/-- C6 (counterexample).  On a file whose tail window holds a multi-byte
character, truncation is not at the byte position where the closing-tag
sequence begins: the closing tag starts at byte twenty-six, yet the file
is cut at byte twenty-five, because rfind returns a character index into
the decoded window and the code subtracts it from a byte offset. -/
theorem c6_counterexample :
    c6bytes = c6bytes.take 26 ++ asciiBytes (wrapper_close_tag "ListRecords") ∧
    ensure_open_wrapper "ListRecords" (some c6bytes) ≠ c6bytes.take 26 := by
  decide

/-- C6 (amended).  When every byte of the bounded tail window is ASCII
(single-byte characters), the scan is over the window only and on a hit
the file is truncated exactly where the last occurrence of the
closing-tag sequence in the window begins, leaving the preceding bytes
unchanged; without a hit the file is unchanged; an absent or empty file
receives exactly the opening tag.  In general the cut point is the
character index of the match, which can differ from its byte position. -/
theorem c6_ensure_open (verb : String) (bs : List Nat) (hne : bs ≠ [])
    (hascii : ∀ b ∈ bs.drop (bs.length - min 8192 bs.length), b < 128) :
    (∀ i, rfindStr (wrapper_close_tag verb)
          (utf8DecodeIgnore (bs.drop (bs.length - min 8192 bs.length))) = some i →
        ensure_open_wrapper verb (some bs) =
            bs.take (bs.length - min 8192 bs.length + i) ∧
          asciiBytes (wrapper_close_tag verb) <+:
            bs.drop (bs.length - min 8192 bs.length + i) ∧
          ∀ j, j ≤ min 8192 bs.length →
            asciiBytes (wrapper_close_tag verb) <+:
              bs.drop (bs.length - min 8192 bs.length + j) → j ≤ i) ∧
    (rfindStr (wrapper_close_tag verb)
          (utf8DecodeIgnore (bs.drop (bs.length - min 8192 bs.length))) = none →
        ensure_open_wrapper verb (some bs) = bs) ∧
    ensure_open_wrapper verb none = asciiBytes (wrapper_open_tag verb) ∧
    ensure_open_wrapper verb (some []) = asciiBytes (wrapper_open_tag verb) := by
  have hlen : ¬ bs.length = 0 := by
    intro h
    exact hne (List.eq_nil_of_length_eq_zero h)
  have htl : (bs.drop (bs.length - min 8192 bs.length)).length = min 8192 bs.length := by
    simp [List.length_drop]
    omega
  have hdec : utf8DecodeIgnore (bs.drop (bs.length - min 8192 bs.length)) =
      (bs.drop (bs.length - min 8192 bs.length)).map Char.ofNat :=
    utf8DecodeIgnore_ascii _ hascii
  have hdd : ∀ j, (bs.drop (bs.length - min 8192 bs.length)).drop j =
      bs.drop (bs.length - min 8192 bs.length + j) := by
    intro j
    rw [List.drop_drop]
  have hpre_iff : ∀ j, (wrapper_close_tag verb).isPrefixOf
        ((utf8DecodeIgnore (bs.drop (bs.length - min 8192 bs.length))).drop j) =
      (asciiBytes (wrapper_close_tag verb)).isPrefixOf
        (bs.drop (bs.length - min 8192 bs.length + j)) := by
    intro j
    rw [hdec, ← List.map_drop, hdd j]
    exact isPrefixOf_map_ofNat _ _
      (fun x hx => hascii x (by
        rw [← hdd j] at hx
        exact List.mem_of_mem_drop hx))
      (close_tag_ascii verb)
  refine ⟨?_, ?_, rfl, rfl⟩
  · intro i hi
    obtain ⟨hile, hocc⟩ := rfindStr_some hi
    refine ⟨?_, ?_, ?_⟩
    · simp [ensure_open_wrapper, hlen, hi]
    · rw [← List.isPrefixOf_iff_prefix, ← hpre_iff i]
      exact hocc
    · intro j hj hjpre
      refine rfindStr_last hi j ?_ ?_
      · rw [hdec, List.length_map, htl]
        exact hj
      · rw [hpre_iff j, List.isPrefixOf_iff_prefix]
        exact hjpre
  · intro hnone
    simp [ensure_open_wrapper, hlen, hnone]

/-- All-ASCII file content: envelope opened and closed with nothing in
between, the witness input of C6. -/
def c6ascii : List Nat :=
  asciiBytes (wrapper_open_tag "ListRecords") ++
    asciiBytes (wrapper_close_tag "ListRecords")

/-- C6 (witness).  On a concrete ASCII file the amended theorem applies:
the closing tag found at character index twenty-four is removed by
truncating at that byte offset, and the closing-tag bytes do begin
there. -/
theorem c6_witness :
    ensure_open_wrapper "ListRecords" (some c6ascii) =
      c6ascii.take (c6ascii.length - min 8192 c6ascii.length + 24) ∧
    asciiBytes (wrapper_close_tag "ListRecords") <+:
      c6ascii.drop (c6ascii.length - min 8192 c6ascii.length + 24) ∧
    ∀ j, j ≤ min 8192 c6ascii.length →
      asciiBytes (wrapper_close_tag "ListRecords") <+:
        c6ascii.drop (c6ascii.length - min 8192 c6ascii.length + j) → j ≤ 24 :=
  (c6_ensure_open "ListRecords" c6ascii (by decide) (by decide)).1 24 (by decide)

/- ---------------------------------------------------------------
   Fetcher retries (C7).
   --------------------------------------------------------------- -/

/-- C7.  For an HTTP error with status 429 or 503 on a non-final
attempt, the wait slept before the retry is the maximum of the linear
backoff value and the Retry-After seconds when the header is present,
nonempty and parseable, hence at least the Retry-After value; when the
header is absent or does not parse as seconds the wait is exactly the
backoff value; and on the final attempt the error is raised. -/
theorem c7_retry_backoff (backoff : ℚ) (retries attempt st : Nat) (ra : Option String)
    (rest : List Resp) (hst : st = 429 ∨ st = 503) :
    (attempt ≠ retries - 1 →
      (∀ h v, ra = some h → h ≠ "" → pyFloat? h = some v →
        (safeGo backoff retries attempt (.httpError st ra :: rest)).1.head? =
            some (max (backoff * (attempt + 1)) v) ∧
          v ≤ max (backoff * (attempt + 1)) v) ∧
      (ra = none →
        (safeGo backoff retries attempt (.httpError st ra :: rest)).1.head? =
          some (backoff * (attempt + 1))) ∧
      (∀ h, ra = some h → pyFloat? h = none →
        (safeGo backoff retries attempt (.httpError st ra :: rest)).1.head? =
          some (backoff * (attempt + 1)))) ∧
    (attempt = retries - 1 →
      safeGo backoff retries attempt (.httpError st ra :: rest) = ([], .error (.http st))) := by
  constructor
  · intro hfin
    have hsg : (safeGo backoff retries attempt (.httpError st ra :: rest)).1.head? =
        some (waitOf backoff attempt st ra) := by
      simp [safeGo, hfin]
    refine ⟨fun h v hra hne hpf => ?_, fun hra => ?_, fun h hra hpf => ?_⟩ <;> subst hra
    · refine ⟨?_, le_max_right _ _⟩
      rw [hsg]
      unfold waitOf
      rcases hst with h4 | h5 <;> subst st <;> simp [hne, hpf]
    · rw [hsg]
      unfold waitOf
      rcases hst with h4 | h5 <;> subst st <;> simp
    · rw [hsg]
      unfold waitOf
      rcases hst with h4 | h5 <;> subst st <;> by_cases hne : h = "" <;> simp [hne, hpf]
  · intro hfin
    rw [safeGo, if_pos hfin]

/-- C7 (witness).  The specification scenario: two 503 responses with
Retry-After of two seconds then a success, with three retries and
backoff one and a half; the first wait is the maximum of the backoff
value and two, hence at least two seconds. -/
theorem c7_witness :
    (safeGo (3/2 : ℚ) 3 0
        [.httpError 503 (some "2"), .httpError 503 (some "2"), .success [49]]).1.head? =
      some (max ((3/2 : ℚ) * (0 + 1)) 2) ∧
    (2 : ℚ) ≤ max ((3/2 : ℚ) * (0 + 1)) 2 := by
  have hpf : pyFloat? "2" = some 2 := by
    have h2 : pyFloat? "2" = some ((decDigitsVal ['2'] : ℚ) / (10 : ℚ) ^ (0 : Nat)) := rfl
    rw [h2, show ((decDigitsVal ['2'] : ℚ) / (10 : ℚ) ^ (0 : Nat)) = 2 by
      norm_num [decDigitsVal, show digitVal '2' = 2 from rfl]]
  have h := (c7_retry_backoff (3/2) 3 0 503 (some "2")
      [.httpError 503 (some "2"), .success [49]] (Or.inr rfl)).1 (by decide)
  exact h.1 "2" 2 rfl (by decide) hpf


/-- C2 (counterexample).  A run that fetches one page and then hits a
fatal error (unrepairable XML or exhausted retries) terminates without
sealing the open segment: no closing tags are written on that terminal
path, so the file left on disk is not standalone XML.  The claim that
sealing happens exactly once on every terminal outcome is therefore
false. -/
theorem c2_counterexample :
    harvestRun ⟨none, none, false, false⟩ [.page 1 (some (some ['t'])), .failure] =
      .aborted ⟨1, 1, 1, [], 1, 0, 0, ['t'], []⟩ ∧
    ([] : List Nat).count 1 = 0 := by
  decide

/-- C2 (amended).  On a normal exit of the loop, completion or limit
reached, the current segment receives its closing tags exactly once; on
a fatal error the loop is left through the exception and the current
segment receives no closing tags, remaining open for a later resume. -/
theorem c2_seal_on_exit (cfg : HConfig) (fs : List Fetch) (s' : HState) :
    (harvestRun cfg fs = .done s' → s'.closedIdx.count s'.fileIndex = 1) ∧
    (harvestRun cfg fs = .aborted s' → s'.closedIdx.count s'.fileIndex = 0) := by
  have h := harvestLoop_seals cfg fs initHState ⟨le_refl 1, rfl⟩
  exact ⟨h.1 s', h.2 s'⟩

/-- C2 (witness).  A one-page run completing normally seals its only
segment exactly once. -/
theorem c2_witness :
    (⟨1, 1, 1, [], 1, 0, 0, [], [1]⟩ : HState).closedIdx.count
      (⟨1, 1, 1, [], 1, 0, 0, [], [1]⟩ : HState).fileIndex = 1 :=
  (c2_seal_on_exit ⟨none, none, false, false⟩ [.page 1 none]
    ⟨1, 1, 1, [], 1, 0, 0, [], [1]⟩).1 rfl

/-- Effect of one page of exactly the threshold size, processed from an
aligned state: the segment fills to the threshold and rotation seals it
and opens the next segment. -/
theorem aligned_step (r : Nat) (hr : 0 < r) (co jo : Bool) (s : HState)
    (tok : Option (Option (List Char))) (hcs : s.curSeg = 0)
    (hmod : s.numItems % r = 0) :
    pageStep ⟨none, some r, co, jo⟩ s r tok =
      ⟨s.numItems + r, s.fileIndex + 1, 0, s.sealed ++ [r],
       s.pagesFetched + 1, s.csvRows + (if co then r else 0),
       s.jsonlRows + (if jo then r else 0), tokenOf tok,
       s.closedIdx ++ [s.fileIndex]⟩ := by
  have h1 : r ≠ 0 := by omega
  have h2 : s.numItems + r ≠ 0 := by omega
  have h3 : (s.numItems + r) % r = 0 := by
    rw [Nat.add_mod_right]
    exact hmod
  cases s with
  | mk num fi cur sealed pf cr jr tk ci =>
    simp only at hcs hmod h2 h3
    subst hcs
    simp [pageStep, writeItems, writtenOf, rotateStep, h1, h2, h3]

/-- From an aligned state, a run of pages of exactly the threshold size
rotates after every page: each page seals one segment of exactly the
threshold size and the final segment is left empty. -/
theorem harvestLoop_uniform (r : Nat) (hr : 0 < r) (co jo : Bool) :
    ∀ (n : Nat) (s : HState), s.curSeg = 0 → s.numItems % r = 0 →
      ∃ s', harvestLoop ⟨none, some r, co, jo⟩ s (uniformPages r (n + 1)) = .done s' ∧
        s'.sealed = s.sealed ++ List.replicate (n + 1) r ∧
        s'.curSeg = 0 ∧ s'.numItems = s.numItems + (n + 1) * r := by
  intro n
  induction n with
  | zero =>
    intro s hcs hmod
    have hps := aligned_step r hr co jo s none hcs hmod
    rw [show uniformPages r 1 = [.page r none] from rfl]
    rw [harvestLoop_cons_page, if_neg (by simp [limitReached]), hps]
    have ht : (tokenOf none).isEmpty = true := rfl
    rw [if_pos ht]
    exact ⟨_, rfl, by simp [sealNow], rfl, by simp [sealNow]⟩
  | succ n ih =>
    intro s hcs hmod
    have hps := aligned_step r hr co jo s (some (some ['t'])) hcs hmod
    rw [show uniformPages r (n + 1 + 1) =
      .page r (some (some ['t'])) :: uniformPages r (n + 1) from rfl]
    rw [harvestLoop_cons_page, if_neg (by simp [limitReached]), hps]
    have ht : ¬ (tokenOf (some (some ['t']))).isEmpty = true := by decide
    rw [if_neg ht]
    obtain ⟨s', hrun, hsealed, hcur, hnum⟩ :=
      ih ⟨s.numItems + r, s.fileIndex + 1, 0, s.sealed ++ [r],
        s.pagesFetched + 1, s.csvRows + (if co then r else 0),
        s.jsonlRows + (if jo then r else 0), tokenOf (some (some ['t'])),
        s.closedIdx ++ [s.fileIndex]⟩ rfl
        (by
          show (s.numItems + r) % r = 0
          rw [Nat.add_mod_right]
          exact hmod)
    refine ⟨s', hrun, ?_, hcur, ?_⟩
    · rw [hsealed]
      show (s.sealed ++ [r]) ++ List.replicate (n + 1) r =
        s.sealed ++ List.replicate (n + 1 + 1) r
      rw [List.append_assoc]
      rfl
    · rw [hnum]
      show s.numItems + r + (n + 1) * r = s.numItems + (n + 1 + 1) * r
      ring

/-- Final state of the run refuting C1: two pages of two items with a
rotation threshold of three never rotate. -/
def c1state : HState := ⟨4, 1, 4, [], 2, 0, 0, [], [1]⟩

/-- C1 (counterexample).  With a rotation threshold of three and two
pages of two items each, the cumulative count passes three in the middle
of the second page and no rotation ever happens: zero segments of
exactly three items are sealed although the total of four items would
demand one, and the final segment holds all four items, not four modulo
three.  Rotation is checked only at page boundaries. -/
theorem c1_counterexample :
    harvestRun ⟨none, some 3, false, false⟩
        [.page 2 (some (some ['t'])), .page 2 none] = .done c1state ∧
    c1state.sealed.count 3 ≠ c1state.numItems / 3 ∧
    c1state.curSeg ≠ c1state.numItems % 3 := by
  decide

/-- C1 (amended).  Rotation is evaluated once per fetched page, after
the items of the page are written: it triggers exactly when the cumulative
count at that page boundary is a positive multiple of the threshold.
Consequently, when page boundaries align with the threshold, here pages
of exactly the threshold size, the sealed segments number the total
count divided by the threshold and each holds exactly the threshold
items, and the final segment holds the remainder, zero. -/
theorem c1_rotation (r n : Nat) (hr : 0 < r) (hn : 0 < n) (co jo : Bool) :
    ∃ s', harvestRun ⟨none, some r, co, jo⟩ (uniformPages r n) = .done s' ∧
      s'.sealed = List.replicate n r ∧
      s'.sealed.count r = s'.numItems / r ∧
      s'.sealed.length = s'.numItems / r ∧
      s'.curSeg = s'.numItems % r ∧
      s'.numItems = n * r := by
  obtain ⟨m, rfl⟩ : ∃ m, n = m + 1 := ⟨n - 1, by omega⟩
  obtain ⟨s', hrun, hsealed, hcur, hnum⟩ :=
    harvestLoop_uniform r hr co jo m initHState rfl rfl
  have hsealed2 : s'.sealed = List.replicate (m + 1) r := by simpa [initHState] using hsealed
  have hnum2 : s'.numItems = (m + 1) * r := by simpa [initHState] using hnum
  refine ⟨s', hrun, hsealed2, ?_, ?_, ?_, hnum2⟩
  · rw [hsealed2, hnum2, List.count_replicate_self, Nat.mul_div_cancel _ hr]
  · rw [hsealed2, hnum2, List.length_replicate, Nat.mul_div_cancel _ hr]
  · rw [hcur, hnum2, Nat.mul_mod_left]

/-- C1 (witness).  Three pages of two items with a threshold of two:
three sealed segments of two items each, an empty final segment, six
items in total. -/
theorem c1_witness :
    ∃ s', harvestRun ⟨none, some 2, false, false⟩ (uniformPages 2 3) = .done s' ∧
      s'.sealed = List.replicate 3 2 ∧
      s'.sealed.count 2 = s'.numItems / 2 ∧
      s'.sealed.length = s'.numItems / 2 ∧
      s'.curSeg = s'.numItems % 2 ∧
      s'.numItems = 3 * 2 :=
  c1_rotation 2 3 (by decide) (by decide) false false

/-- Total item count of a fetch list, cons form. -/
theorem sumItems_cons (f : Fetch) (rest : List Fetch) :
    sumItems (f :: rest) = itemsOfFetch f + sumItems rest := by
  simp [sumItems]

/-- A well-formed page followed by more pages carries a nonempty token. -/
theorem goodPages_cons_ne {k : Nat} {t : Option (Option (List Char))}
    {rest : List Fetch} (hg : goodPages (.page k t :: rest) = true)
    (hne : rest ≠ []) : tokenOf t ≠ [] ∧ goodPages rest = true := by
  cases rest with
  | nil => exact absurd rfl hne
  | cons f2 r2 =>
    have he : goodPages (.page k t :: f2 :: r2) =
        (!(tokenOf t).isEmpty && goodPages (f2 :: r2)) := rfl
    rw [he] at hg
    have h := Bool.and_eq_true _ _ |>.mp hg
    refine ⟨?_, h.2⟩
    intro hnil
    rw [hnil] at h
    simp at h

/-- A page step preserves the rows invariant. -/
theorem pageStep_rowsInv (cfg : HConfig) (s : HState) (items : Nat)
    (tok : Option (Option (List Char))) (h : rowsInv cfg s) :
    rowsInv cfg (pageStep cfg s items tok) := by
  obtain ⟨h1, h2, h3⟩ := h
  show rowsInv cfg (rotateStep cfg (writeItems cfg s items))
  have hw : rowsInv cfg (writeItems cfg s items) := by
    refine ⟨?_, ?_, ?_⟩
    · show s.csvRows + (if cfg.csvOn then writtenOf cfg s items else 0) =
        if cfg.csvOn then s.numItems + writtenOf cfg s items else 0
      cases hco : cfg.csvOn <;> simp [hco] at h1 ⊢ <;> omega
    · show s.jsonlRows + (if cfg.jsonlOn then writtenOf cfg s items else 0) =
        if cfg.jsonlOn then s.numItems + writtenOf cfg s items else 0
      cases hjo : cfg.jsonlOn <;> simp [hjo] at h2 ⊢ <;> omega
    · show s.sealed.sum + (s.curSeg + writtenOf cfg s items) =
        s.numItems + writtenOf cfg s items
      omega
  unfold rotateStep
  cases cfg.rotateEvery with
  | none => exact hw
  | some r =>
    dsimp only
    split
    · obtain ⟨g1, g2, g3⟩ := hw
      refine ⟨g1, g2, ?_⟩
      show ((writeItems cfg s items).sealed ++ [(writeItems cfg s items).curSeg]).sum + 0 =
        (writeItems cfg s items).numItems
      rw [List.sum_append]
      simp
      omega
    · exact hw

/-- C8 (helper).  From a state below the limit, against well-formed
pages that would deliver more than the remaining allowance, the loop
ends normally with exactly the limit written, rows matching, and no page
fetched after the limit was reached. -/
theorem harvestLoop_limit (N : Nat) (cfg : HConfig) (hcfg : cfg.maxItems = some N) :
    ∀ (fs : List Fetch) (s : HState), goodPages fs = true → rowsInv cfg s →
      s.numItems < N → N < s.numItems + sumItems fs →
      ∃ s' d, harvestLoop cfg s fs = .done s' ∧ s'.numItems = N ∧ rowsInv cfg s' ∧
        s'.pagesFetched = s.pagesFetched + d ∧ 0 < d ∧ d ≤ fs.length ∧
        s.numItems + sumItems (List.take (d - 1) fs) < N := by
  intro fs
  induction fs with
  | nil =>
    intro s _ _ h1 h2
    exfalso
    simp [sumItems] at h2
    omega
  | cons f rest ih =>
    intro s hg hinv h1 h2
    cases f with
    | failure =>
      exfalso
      have hfail : goodPages (.failure :: rest) = false := by cases rest <;> rfl
      rw [hfail] at hg
      simp at hg
    | page k tok =>
      have hlim : limitReached cfg s = false := by
        simp [limitReached, hcfg]
        omega
      have hnum := pageStep_numItems cfg s k tok
      have hpf := pageStep_pagesFetched cfg s k tok
      have hinv2 := pageStep_rowsInv cfg s k tok hinv
      rw [harvestLoop_cons_page, if_neg (by simp [hlim])]
      by_cases hreach : N ≤ s.numItems + k
      · have hwr : writtenOf cfg s k = N - s.numItems := by
          simp [writtenOf, hcfg]
          omega
        have hN : (pageStep cfg s k tok).numItems = N := by
          rw [hnum, hwr]
          omega
        have hlim2 : limitReached cfg (pageStep cfg s k tok) = true := by
          simp [limitReached, hcfg, hN]
        by_cases ht : (pageStep cfg s k tok).token.isEmpty = true
        · rw [if_pos ht]
          exact ⟨sealNow (pageStep cfg s k tok), 1, rfl, hN, hinv2, hpf,
            by omega, by simp, by simpa using h1⟩
        · rw [if_neg ht, harvestLoop_limit_stop cfg _ rest hlim2]
          exact ⟨sealNow (pageStep cfg s k tok), 1, rfl, hN, hinv2, hpf,
            by omega, by simp, by simpa using h1⟩
      · push_neg at hreach
        have hwr : writtenOf cfg s k = k := by
          simp [writtenOf, hcfg]
          omega
        have hnum2 : (pageStep cfg s k tok).numItems = s.numItems + k := by
          rw [hnum, hwr]
        have hrest : rest ≠ [] := by
          intro h0
          subst h0
          rw [sumItems_cons] at h2
          simp [sumItems, itemsOfFetch] at h2
          omega
        obtain ⟨htok, hgrest⟩ := goodPages_cons_ne hg hrest
        have ht : ¬ (pageStep cfg s k tok).token.isEmpty = true := by
          rw [pageStep_token]
          cases h3 : tokenOf tok with
          | nil => exact absurd h3 htok
          | cons a l => simp
        rw [if_neg ht]
        have h2b : N < (pageStep cfg s k tok).numItems + sumItems rest := by
          rw [hnum2, sumItems_cons] at *
          simp [itemsOfFetch] at h2
          omega
        obtain ⟨s', d', hrun, hN', hinv', hpf', hd0, hdle, hlt⟩ :=
          ih (pageStep cfg s k tok) hgrest hinv2 (by rw [hnum2]; omega) h2b
        refine ⟨s', d' + 1, hrun, hN', hinv', ?_, by omega, ?_, ?_⟩
        · rw [hpf', hpf]
          omega
        · simp
          omega
        · obtain ⟨m, rfl⟩ : ∃ m, d' = m + 1 := ⟨d' - 1, by omega⟩
          show s.numItems + sumItems (List.take (m + 1) (.page k tok :: rest)) < N
          rw [List.take_succ_cons, sumItems_cons]
          rw [hnum2] at hlt
          simp only [Nat.add_sub_cancel] at hlt
          simp only [itemsOfFetch]
          omega

/-- C8.  With a configured item limit against a server that would
deliver more items across well-formed pages, the run ends normally with
exactly the limit written to the segments, exactly the limit rows in
each enabled export sink, and with every page fetch issued only while
the count was still below the limit — no further page once the limit is
reached. -/
theorem c8_item_limit (cfg : HConfig) (N : Nat) (fs : List Fetch)
    (hcfg : cfg.maxItems = some N) (hN : 0 < N) (hg : goodPages fs = true)
    (hT : N < sumItems fs) :
    ∃ s' d, harvestRun cfg fs = .done s' ∧ s'.numItems = N ∧
      s'.csvRows = (if cfg.csvOn then N else 0) ∧
      s'.jsonlRows = (if cfg.jsonlOn then N else 0) ∧
      s'.sealed.sum + s'.curSeg = N ∧
      s'.pagesFetched = d ∧ 0 < d ∧ d ≤ fs.length ∧
      sumItems (List.take (d - 1) fs) < N := by
  have hinit : rowsInv cfg initHState := by
    refine ⟨?_, ?_, rfl⟩ <;> cases cfg.csvOn <;> cases cfg.jsonlOn <;> simp [initHState]
  obtain ⟨s', d, hrun, hnum, ⟨hr1, hr2, hr3⟩, hpf, hd0, hdle, hlt⟩ :=
    harvestLoop_limit N cfg hcfg fs initHState hg hinit (by simpa [initHState] using hN)
      (by simpa [initHState] using hT)
  refine ⟨s', d, hrun, hnum, ?_, ?_, ?_, by simpa [initHState] using hpf, hd0, hdle,
    by simpa [initHState] using hlt⟩
  · rw [hr1, hnum]
  · rw [hr2, hnum]
  · rw [hr3, hnum]

/-- C8 (witness).  Limit five against pages of three, three and four
items: the run stops after the second page with five items and five rows
in each sink, and only the first two pages are fetched. -/
theorem c8_witness :
    ∃ s' d, harvestRun ⟨some 5, none, true, true⟩
        [.page 3 (some (some ['a'])), .page 3 (some (some ['b'])), .page 4 none] =
      .done s' ∧ s'.numItems = 5 ∧
      s'.csvRows = (if true then 5 else 0) ∧
      s'.jsonlRows = (if true then 5 else 0) ∧
      s'.sealed.sum + s'.curSeg = 5 ∧
      s'.pagesFetched = d ∧ 0 < d ∧ d ≤ 3 ∧
      sumItems (List.take (d - 1)
        [Fetch.page 3 (some (some ['a'])), .page 3 (some (some ['b'])), .page 4 none]) < 5 :=
  c8_item_limit ⟨some 5, none, true, true⟩ 5
    [.page 3 (some (some ['a'])), .page 3 (some (some ['b'])), .page 4 none]
    rfl (by decide) (by decide) (by decide)

/-- A normal exit never loses fetched pages. -/
theorem harvestLoop_done_pf_le (cfg : HConfig) :
    ∀ (fs : List Fetch) (s s' : HState),
      harvestLoop cfg s fs = .done s' → s.pagesFetched ≤ s'.pagesFetched := by
  intro fs
  induction fs with
  | nil =>
    intro s s' hrun
    rw [harvestLoop_nil] at hrun
    by_cases hl : limitReached cfg s = true
    · rw [if_pos hl] at hrun
      cases hrun
      exact le_refl _
    · rw [if_neg hl] at hrun
      cases hrun
  | cons f rest ih =>
    intro s s' hrun
    cases f with
    | failure =>
      rw [harvestLoop_failure] at hrun
      by_cases hl : limitReached cfg s = true
      · rw [if_pos hl] at hrun
        cases hrun
        exact le_refl _
      · rw [if_neg hl] at hrun
        cases hrun
    | page k tok =>
      rw [harvestLoop_cons_page] at hrun
      by_cases hl : limitReached cfg s = true
      · rw [if_pos hl] at hrun
        cases hrun
        exact le_refl _
      · rw [if_neg hl] at hrun
        by_cases ht : (pageStep cfg s k tok).token.isEmpty = true
        · rw [if_pos ht] at hrun
          cases hrun
          rw [(sealNow_fields _).2.2.2.2.1, pageStep_pagesFetched]
          omega
        · rw [if_neg ht] at hrun
          have := ih (pageStep cfg s k tok) s' hrun
          rw [pageStep_pagesFetched] at this
          omega

/-- If the loop is entered with the limit not yet reached and exits
normally, at least one further page was fetched. -/
theorem harvestLoop_done_pf_lt (cfg : HConfig) (fs : List Fetch) (s s' : HState)
    (hl : limitReached cfg s = false) (hrun : harvestLoop cfg s fs = .done s') :
    s.pagesFetched < s'.pagesFetched := by
  cases fs with
  | nil =>
    rw [harvestLoop_nil, if_neg (by simp [hl])] at hrun
    cases hrun
  | cons f rest =>
    cases f with
    | failure =>
      rw [harvestLoop_failure, if_neg (by simp [hl])] at hrun
      cases hrun
    | page k tok =>
      rw [harvestLoop_cons_page, if_neg (by simp [hl])] at hrun
      by_cases ht : (pageStep cfg s k tok).token.isEmpty = true
      · rw [if_pos ht] at hrun
        cases hrun
        rw [(sealNow_fields _).2.2.2.2.1, pageStep_pagesFetched]
        omega
      · rw [if_neg ht] at hrun
        have := harvestLoop_done_pf_le cfg rest (pageStep cfg s k tok) s' hrun
        rw [pageStep_pagesFetched] at this
        omega

/-- C10.  The stored resumption token of a page is the stripped text of
its token element, so an absent element, an element without text, and an
element whose text is only whitespace are all treated as the empty
token; and, provided the item limit does not end the run at this page,
the loop terminates right after the page exactly when the stripped token
is empty. -/
theorem c10_token_strip (cfg : HConfig) (s : HState) (items : Nat) (t : List Char)
    (rest : List Fetch) (h1 : limitReached cfg s = false)
    (h2 : limitReached cfg (pageStep cfg s items (some (some t))) = false) :
    tokenOf none = [] ∧ tokenOf (some none) = [] ∧
    (∀ u : List Char, u.all isSpaceChar = true → tokenOf (some (some u)) = []) ∧
    (pageStep cfg s items (some (some t))).token = pyStrip t ∧
    (harvestLoop cfg s (.page items (some (some t)) :: rest) =
        .done (sealNow (pageStep cfg s items (some (some t)))) ↔ pyStrip t = []) := by
  refine ⟨rfl, rfl, ?_, ?_, ?_⟩
  · intro u hu
    rw [tokenOf_some]
    have hnil : u.dropWhile isSpaceChar = [] :=
      List.dropWhile_eq_nil_iff.mpr (fun x hx => List.all_eq_true.mp hu x hx)
    unfold pyStrip
    rw [hnil]
    rfl
  · rw [pageStep_token, tokenOf_some]
  · rw [harvestLoop_cons_page, if_neg (by simp [h1])]
    by_cases ht : (pageStep cfg s items (some (some t))).token.isEmpty = true
    · rw [if_pos ht]
      constructor
      · intro _
        have := ht
        rw [pageStep_token, tokenOf_some] at this
        exact List.isEmpty_iff.mp this
      · intro _
        rfl
    · rw [if_neg ht]
      constructor
      · intro heq
        exfalso
        have hlt := harvestLoop_done_pf_lt cfg rest _ _ h2 heq
        rw [(sealNow_fields _).2.2.2.2.1] at hlt
        omega
      · intro hstrip
        exfalso
        rw [pageStep_token, tokenOf_some, hstrip] at ht
        simp at ht

/-- C10 (witness).  A page whose token element holds only a blank: the
stored token is the empty stripped text and the loop stops after that
page. -/
theorem c10_witness :
    (pageStep ⟨none, none, false, false⟩ initHState 2 (some (some [' ']))).token =
      pyStrip [' '] ∧
    (harvestLoop ⟨none, none, false, false⟩ initHState [.page 2 (some (some [' ']))] =
        .done (sealNow (pageStep ⟨none, none, false, false⟩ initHState 2
          (some (some [' '])))) ↔ pyStrip [' '] = []) := by
  have h := c10_token_strip ⟨none, none, false, false⟩ initHState 2 [' '] [] rfl rfl
  exact ⟨h.2.2.2.1, h.2.2.2.2⟩

end Harvester
